import Mathlib

/-!
Shallow embedding of the coder-cli agent core, translated from the
TypeScript sources:

* `src/llm/LLMClient.ts` — `parseJSON` (markdown fence stripping + JSON parse);
* `src/core/AgentController.ts` — history, prompt formatting, `parseAction`,
  `executeIteration`, the `run` loop;
* `src/tools/ActionExecutor.ts` + `src/tools/toolSchemas.ts` — the action
  registry, schema table and parameter validation;
* `src/tools/actions/fileSystem.ts` — `readFileStats`, `readFileChunk`;
* `src/utils/RateLimiter.ts` — the retry wrapper.

JavaScript values produced by `JSON.parse` are modelled by the inductive
`Json`; the JavaScript `undefined` that member access can produce is
modelled by `Option Json` (`none` = undefined).  JSON numbers are modelled
exactly as decimal literals (mantissa and a power-of-ten exponent); no
claim depends on IEEE rounding.  Thrown JavaScript exceptions are modelled
by `Except String`, carrying the error message.  The amounts of real time
slept by the rate limiter, and the operating system behind the file-system
and LLM calls, are modelled by explicit oracles.
-/

set_option autoImplicit false

mutual

/-- A JavaScript value as produced by `JSON.parse`.  Arrays and objects are
separate inductives so that all recursion over `Json` is structural. -/
inductive Json where
  | null : Json
  | bool (b : Bool) : Json
  | num (mant : Int) (exp10 : Int) : Json
  | str (s : String) : Json
  | arr (items : JsonArr) : Json
  | obj (fields : JsonObj) : Json

/-- A JavaScript array of `Json` values. -/
inductive JsonArr where
  | nil : JsonArr
  | cons (hd : Json) (tl : JsonArr) : JsonArr

/-- The fields of a JavaScript object, in insertion order. -/
inductive JsonObj where
  | nil : JsonObj
  | cons (key : String) (val : Json) (tl : JsonObj) : JsonObj

end

/-- Property read on an object: the value of the last binding of `k`
(later duplicate keys overwrite earlier ones in a JS object literal);
`none` models `undefined`. -/
def JsonObj.getLast (k : String) : JsonObj → Option Json
  | .nil => none
  | .cons key v tl =>
    match JsonObj.getLast k tl with
    | some r => some r
    | none => if key = k then some v else none

/-- Append one element at the end of a JS array. -/
def JsonArr.push (a : JsonArr) (v : Json) : JsonArr :=
  match a with
  | .nil => .cons v .nil
  | .cons hd tl => .cons hd (tl.push v)

/-- Append a field at the end of a JS object. -/
def JsonObj.push (o : JsonObj) (k : String) (v : Json) : JsonObj :=
  match o with
  | .nil => .cons k v .nil
  | .cons key val tl => .cons key val (tl.push k v)

/-- JavaScript member access `recv.k` (equivalently `recv[k]`): throws a
TypeError when the receiver is `undefined` or `null`; yields `undefined`
for primitives and arrays (no claim reads built-in properties such as
`length`); looks the key up on objects. -/
def jsMember (recv : Option Json) (k : String) : Except String (Option Json) :=
  match recv with
  | none => .error ("TypeError: cannot read properties of undefined (reading " ++ k ++ ")")
  | some Json.null => .error ("TypeError: cannot read properties of null (reading " ++ k ++ ")")
  | some (Json.obj fields) => .ok (fields.getLast k)
  | some _ => .ok none

/-- JavaScript `String(v)` for the values that can reach a template
literal in this model (only the `undefined` and plain-string cases are
exercised by any claim). -/
def jsToString (v : Option Json) : String :=
  match v with
  | none => "undefined"
  | some Json.null => "null"
  | some (Json.bool true) => "true"
  | some (Json.bool false) => "false"
  | some (Json.num m e) => toString m ++ (if e = 0 then "" else "e" ++ toString e)
  | some (Json.str s) => s
  | some (Json.arr _) => "[array]"
  | some (Json.obj _) => "[object Object]"

/-! ## Character-list utilities behind `LLMClient.parseJSON`

`parseJSON` manipulates the response with `String.prototype.includes`,
`String.prototype.split` and `String.prototype.trim`.  These are modelled
over `List Char`.  JavaScript `split` cuts at every non-overlapping
occurrence of the separator, left to right; the code only ever reads
`split(sep)[1]` (the text between the first and second occurrence) and
`split(sep)[0]` (the text before the first occurrence), which are
`upToFirst sep (afterFirst sep l)` and `upToFirst sep l` respectively. -/

/-- `String.prototype.includes(sep)` for a non-empty separator: does `sep`
occur as a contiguous subsequence of `l`?  (`containsSeq [] l = true`,
as in JavaScript.) -/
def containsSeq (sep : List Char) : List Char → Bool
  | [] => sep.isEmpty
  | c :: rest => sep.isPrefixOf (c :: rest) || containsSeq sep rest

/-- The part of `l` strictly before the first occurrence of `sep`
(all of `l` when `sep` does not occur): `split(sep)[0]`. -/
def upToFirst (sep : List Char) : List Char → List Char
  | [] => []
  | c :: rest => if sep.isPrefixOf (c :: rest) then [] else c :: upToFirst sep rest

/-- The part of `l` just after the first occurrence of `sep`
(`[]` when `sep` does not occur): the tail that JavaScript `split` keeps
cutting after the first separator. -/
def afterFirst (sep : List Char) : List Char → List Char
  | [] => []
  | c :: rest =>
    if sep.isPrefixOf (c :: rest) then List.drop (sep.length - 1) rest
    else afterFirst sep rest

/-- `String.prototype.trim` from the left (whitespace model: `Char.isWhitespace`,
which covers the space, tab, CR and LF that occur in this system). -/
def trimL (l : List Char) : List Char := l.dropWhile Char.isWhitespace

/-- `String.prototype.trim` from the right, written structurally. -/
def trimR : List Char → List Char
  | [] => []
  | c :: rest =>
    match trimR rest with
    | [] => if c.isWhitespace then [] else [c]
    | r => c :: r

/-- `String.prototype.trim`. -/
def jsTrim (l : List Char) : List Char := trimL (trimR l)

/-- The separator `"```json"` of the json-tagged fence branch. -/
def sepJson : List Char := ['`', '`', '`', 'j', 's', 'o', 'n']

/-- The separator `"```"` of the bare-fence branch. -/
def sepFence : List Char := ['`', '`', '`']

/-! ## A strict JSON parser (the model of `JSON.parse`)

`JSON.parse` tolerates whitespace around the document, rejects trailing
garbage, unterminated strings, unescaped control characters in strings and
leading zeros in numbers.  Error message texts are this model's own: the
agent code never branches on them, only wraps them. -/

/-- The numeric value of one hexadecimal digit. -/
def hexDigitVal (c : Char) : Option Nat :=
  if '0' ≤ c ∧ c ≤ '9' then some (c.toNat - '0'.toNat)
  else if 'a' ≤ c ∧ c ≤ 'f' then some (c.toNat - 'a'.toNat + 10)
  else if 'A' ≤ c ∧ c ≤ 'F' then some (c.toNat - 'A'.toNat + 10)
  else none

/-- The body of a JSON string literal, after the opening quote; `acc` holds
the decoded characters in reverse. -/
def parseStrBody : List Char → List Char → Except String (String × List Char)
  | [], _ => .error "unterminated string"
  | '"' :: rest, acc => .ok (String.mk acc.reverse, rest)
  | '\\' :: esc, acc =>
    match esc with
    | '"' :: rest => parseStrBody rest ('"' :: acc)
    | '\\' :: rest => parseStrBody rest ('\\' :: acc)
    | '/' :: rest => parseStrBody rest ('/' :: acc)
    | 'b' :: rest => parseStrBody rest ('\x08' :: acc)
    | 'f' :: rest => parseStrBody rest ('\x0c' :: acc)
    | 'n' :: rest => parseStrBody rest ('\n' :: acc)
    | 'r' :: rest => parseStrBody rest ('\r' :: acc)
    | 't' :: rest => parseStrBody rest ('\t' :: acc)
    | 'u' :: h1 :: h2 :: h3 :: h4 :: rest =>
      match hexDigitVal h1, hexDigitVal h2, hexDigitVal h3, hexDigitVal h4 with
      | some a, some b, some c, some d =>
        parseStrBody rest (Char.ofNat (((a * 16 + b) * 16 + c) * 16 + d) :: acc)
      | _, _, _, _ => .error "bad unicode escape"
    | _ => .error "bad escape"
  | c :: rest, acc =>
    if c.toNat < 32 then .error "unescaped control character"
    else parseStrBody rest (c :: acc)

/-- Split a leading run of decimal digits off a character list. -/
def takeDigits : List Char → List Char × List Char
  | [] => ([], [])
  | c :: rest =>
    if c.isDigit then
      let p := takeDigits rest
      (c :: p.1, p.2)
    else ([], c :: rest)

/-- The value of a digit run. -/
def digitsVal (ds : List Char) : Nat :=
  ds.foldl (fun acc c => acc * 10 + (c.toNat - '0'.toNat)) 0

/-- Assemble a parsed JSON number from its sign, integer digits, fraction
digits and exponent: the exact decimal `mant * 10 ^ exp10`. -/
def mkNum (neg : Bool) (ds fs : List Char) (expPart : Int) (rest : List Char) :
    Except String (Json × List Char) :=
  let mantNat := digitsVal (ds ++ fs)
  let mant : Int := if neg then -(mantNat : Int) else (mantNat : Int)
  .ok (Json.num mant (expPart - (fs.length : Int)), rest)

/-- The exponent part of a JSON number, after the `e`/`E`. -/
def parseNumExp (neg : Bool) (ds fs : List Char) (r : List Char) :
    Except String (Json × List Char) :=
  let p := match r with
    | '+' :: t => ((1 : Int), t)
    | '-' :: t => ((-1 : Int), t)
    | _ => ((1 : Int), r)
  match takeDigits p.2 with
  | ([], _) => .error "invalid exponent"
  | (es, r3) => mkNum neg ds fs (p.1 * (digitsVal es : Int)) r3

/-- A JSON number starting at the head of `l`. -/
def parseNum (l : List Char) : Except String (Json × List Char) :=
  let sp := match l with
    | '-' :: r => (true, r)
    | _ => (false, l)
  match takeDigits sp.2 with
  | ([], _) => .error "invalid number"
  | (ds, r2) =>
    if ds.length > 1 ∧ ds.headI = '0' then .error "leading zero in number"
    else
      match r2 with
      | '.' :: r3 =>
        match takeDigits r3 with
        | ([], _) => .error "invalid fraction"
        | (fs, r4) =>
          match r4 with
          | 'e' :: r5 => parseNumExp sp.1 ds fs r5
          | 'E' :: r5 => parseNumExp sp.1 ds fs r5
          | _ => mkNum sp.1 ds fs 0 r4
      | 'e' :: r5 => parseNumExp sp.1 ds [] r5
      | 'E' :: r5 => parseNumExp sp.1 ds [] r5
      | _ => mkNum sp.1 ds [] 0 r2

/-- What the recursive-descent step is currently parsing: a value, the
elements of an array (after `[`), or the fields of an object (after the
opening brace). -/
inductive PMode where
  | val : PMode
  | arrElems (acc : JsonArr) : PMode
  | objFields (acc : JsonObj) : PMode

/-- One fuel-indexed recursive-descent parser covering values, arrays and
objects.  The fuel only bounds nesting; `jparseChars` supplies enough for
any input. -/
def parseStep : Nat → PMode → List Char → Except String (Json × List Char)
  | 0, _, _ => .error "input too deeply nested"
  | fuel + 1, .val, l =>
    match trimL l with
    | [] => .error "unexpected end of input"
    | 'n' :: 'u' :: 'l' :: 'l' :: rest => .ok (Json.null, rest)
    | 't' :: 'r' :: 'u' :: 'e' :: rest => .ok (Json.bool true, rest)
    | 'f' :: 'a' :: 'l' :: 's' :: 'e' :: rest => .ok (Json.bool false, rest)
    | '"' :: rest =>
      match parseStrBody rest [] with
      | .error e => .error e
      | .ok (s, r) => .ok (Json.str s, r)
    | '[' :: rest =>
      match trimL rest with
      | ']' :: rest2 => .ok (Json.arr .nil, rest2)
      | _ => parseStep fuel (.arrElems .nil) rest
    | '\x7b' :: rest =>
      match trimL rest with
      | '\x7d' :: rest2 => .ok (Json.obj .nil, rest2)
      | _ => parseStep fuel (.objFields .nil) rest
    | c :: rest =>
      if c = '-' ∨ c.isDigit then parseNum (c :: rest)
      else .error ("unexpected token " ++ String.mk [c])
  | fuel + 1, .arrElems acc, l =>
    match parseStep fuel .val l with
    | .error e => .error e
    | .ok (v, rest) =>
      match trimL rest with
      | ',' :: rest2 => parseStep fuel (.arrElems (acc.push v)) rest2
      | ']' :: rest2 => .ok (Json.arr (acc.push v), rest2)
      | _ => .error "expected comma or end of array"
  | fuel + 1, .objFields acc, l =>
    match trimL l with
    | '"' :: rest =>
      match parseStrBody rest [] with
      | .error e => .error e
      | .ok (k, rest2) =>
        match trimL rest2 with
        | ':' :: rest3 =>
          match parseStep fuel .val rest3 with
          | .error e => .error e
          | .ok (v, rest4) =>
            match trimL rest4 with
            | ',' :: rest5 => parseStep fuel (.objFields (acc.push k v)) rest5
            | '\x7d' :: rest5 => .ok (Json.obj (acc.push k v), rest5)
            | _ => .error "expected comma or end of object"
        | _ => .error "expected colon in object"
    | _ => .error "expected string key in object"

/-- `JSON.parse` on a character list: trims the document, parses one value
and rejects trailing garbage. -/
def jparseChars (l : List Char) : Except String Json :=
  let t := jsTrim l
  match parseStep (2 * t.length + 2) .val t with
  | .error e => .error e
  | .ok (v, rest) => if rest.isEmpty then .ok v else .error "unexpected trailing characters"

/-- The fence-stripping front half of `LLMClient.parseJSON`: with a
`"```json"` marker present, `text.split("```json")[1].split("```")[0].trim()`;
otherwise with a bare `"```"` present, `text.split("```")[1].split("```")[0].trim()`;
otherwise the text itself. -/
def stripFence (text : List Char) : List Char :=
  if containsSeq sepJson text then jsTrim (upToFirst sepFence (afterFirst sepJson text))
  else if containsSeq sepFence text then jsTrim (upToFirst sepFence (afterFirst sepFence text))
  else text

/-- `LLMClient.parseJSON`: strip an optional markdown fence, then
`JSON.parse`; any parse failure is rethrown as an
"Invalid JSON in LLM response" error carrying the parse error message. -/
def parseJSON (text : String) : Except String Json :=
  match jparseChars (stripFence text.data) with
  | .error e => .error ("Invalid JSON in LLM response: " ++ e)
  | .ok v => .ok v

/-- `AgentController.parseAction`: `parseJSON` then the member read
`parsed.action`, the whole wrapped so that any throw (the parse failure, or
the TypeError when the document is `null`) is rethrown as a "Failed to
parse action from LLM response" error.  The result is the `action` field as
a JS value, `none` when the field is absent (`undefined`): the method
itself performs no shape validation. -/
def parseAction (text : String) : Except String (Option Json) :=
  match parseJSON text with
  | .error e => .error ("Failed to parse action from LLM response: " ++ e)
  | .ok parsed =>
    match jsMember (some parsed) "action" with
    | .error e => .error ("Failed to parse action from LLM response: " ++ e)
    | .ok v => .ok v

/-! ## Action schemas and the ActionExecutor (`toolSchemas.ts`, `ActionExecutor.ts`) -/

/-- One parameter's entry in a schema: its declared type and description. -/
structure ParamSpec where
  ptype : String
  description : String
deriving DecidableEq, Repr

/-- An action schema: description, parameter table and required-parameter
names, as the `toolSchemas.ts` literals declare them. -/
structure BaseActionSchema where
  name : String
  description : String
  parameters : List (String × ParamSpec)
  required : List String
deriving DecidableEq, Repr

/-- The `shell` action schema. -/
def shellActionSchema : BaseActionSchema :=
  ⟨"shell", "Execute a shell command and return its output.",
    [("command", ⟨"string", "The shell command to execute."⟩)], ["command"]⟩

/-- The `readFileStats` action schema. -/
def readFileStatsSchema : BaseActionSchema :=
  ⟨"readFileStats", "Get metadata about a file (size, line count, existence).",
    [("path", ⟨"string", "The path to the file to read stats for."⟩)], ["path"]⟩

/-- The `readFileChunk` action schema. -/
def readFileChunkSchema : BaseActionSchema :=
  ⟨"readFileChunk", "Read a portion of a file specified by starting line and line count.",
    [("path", ⟨"string", "The path to the file to read."⟩),
     ("startLine", ⟨"number", "The line number to start reading from (0-indexed)."⟩),
     ("lineCount", ⟨"number", "The number of lines to read."⟩)],
    ["path", "startLine", "lineCount"]⟩

/-- The `appendFileChunk` action schema. -/
def appendFileChunkSchema : BaseActionSchema :=
  ⟨"appendFileChunk", "Append content to the end of a file.",
    [("path", ⟨"string", "The path to the file to append to."⟩),
     ("content", ⟨"string", "The content to append to the file."⟩)],
    ["path", "content"]⟩

/-- The `finish` action schema. -/
def finishActionSchema : BaseActionSchema :=
  ⟨"finish", "Signal that the task is complete.",
    [("reason", ⟨"string", "The reason why the task is considered complete."⟩)], ["reason"]⟩

/-- The `actionSchemas` record of `toolSchemas.ts`, in its literal order. -/
def actionSchemasEntries : List (String × BaseActionSchema) :=
  [("shell", shellActionSchema),
   ("readFileStats", readFileStatsSchema),
   ("readFileChunk", readFileChunkSchema),
   ("appendFileChunk", appendFileChunkSchema),
   ("finish", finishActionSchema)]

/-- Indexing `actionSchemas[name]` (`undefined` = `none`). -/
def actionSchemas (nm : String) : Option BaseActionSchema :=
  actionSchemasEntries.lookup nm

/-- The names registered by `ActionExecutor.registerActions`, in
registration order.  The registered implementation functions themselves
reach the operating system, so the dispatch target's behaviour is an
oracle (`ImplOracle`) in this model; only membership in the registry is
fixed by the code. -/
def registryNames : List String := ["shell", "readFileStats", "readFileChunk", "appendFileChunk", "finish"]

/-- `ActionExecutor.isActionRegistered`: `this.actionRegistry.has(name)`. -/
def isActionRegistered (nm : String) : Bool := registryNames.contains nm

/-- What one call of a registered implementation does: return a result
object, or throw. -/
inductive ImplOutcome where
  | returns (r : Json) : ImplOutcome
  | throws (msg : String) : ImplOutcome

/-- The behaviour of the registered implementations, abstracted over the
operating system: action name and the `parameters` value it is handed. -/
def ImplOracle : Type := String → Option Json → ImplOutcome

/-- `ActionExecutor.validateParameters`: for each schema-required name `p`
in order, throw a "Missing required parameter" error when
`parameters[p] === undefined`.  Member access itself may throw a TypeError
when `parameters` is `undefined` or `null`. -/
def validateParameters (nm : String) (required : List String) (paramsV : Option Json) :
    Except String Unit :=
  match required with
  | [] => .ok ()
  | p :: rest =>
    match jsMember paramsV p with
    | .error e => .error e
    | .ok none =>
      .error ("Missing required parameter \"" ++ p ++ "\" for action \"" ++ nm ++ "\"")
    | .ok (some _) => validateParameters nm rest paramsV

/-- The `{success:false, error}` result that `ActionExecutor.execute`
builds when the dispatched implementation throws. -/
def implFailureResult (msg : String) : Json :=
  Json.obj (JsonObj.cons "success" (Json.bool false) (JsonObj.cons "error" (Json.str msg) JsonObj.nil))

/-- `ActionExecutor.execute`: destructure `{name, parameters}` from the
action value, throw for an unregistered name, look the schema up (the
"Schema not found" throw is unreachable while registry and schema table
stay in lock-step), validate required parameters, then dispatch; an
exception thrown by the implementation itself is caught and converted to
`{success:false, error}`.  `Except.error` is a throw that propagates to the
caller. -/
def executeAction (impl : ImplOracle) (action : Option Json) : Except String Json :=
  match jsMember action "name", jsMember action "parameters" with
  | .error e, _ => .error e
  | .ok _, .error e => .error e
  | .ok nameV, .ok paramsV =>
    match nameV with
    | some (Json.str nm) =>
      if isActionRegistered nm then
        match actionSchemas nm with
        | none => .error ("Schema not found for action \"" ++ nm ++ "\"")
        | some schema =>
          match validateParameters nm schema.required paramsV with
          | .error e => .error e
          | .ok _ =>
            match impl nm paramsV with
            | .throws m => .ok (implFailureResult m)
            | .returns r => .ok r
      else .error ("Action \"" ++ nm ++ "\" is not registered")
    | _ => .error ("Action \"" ++ jsToString nameV ++ "\" is not registered")

/-- A well-typed `Action` value as the TypeScript interface declares it
(`name` a string, `parameters` an object): the shape `parseAction` yields
from a well-formed model reply. -/
def mkAction (nm : String) (fields : JsonObj) : Option Json :=
  some (Json.obj (JsonObj.cons "name" (Json.str nm)
    (JsonObj.cons "parameters" (Json.obj fields) JsonObj.nil)))

/-! ## File-system actions (`fileSystem.ts`) -/

/-- What `fs.stat` on a path can report: a not-found error (`ENOENT`),
another I/O error, or a node with its kind, size and full content. -/
inductive StatOutcome where
  | enoent : StatOutcome
  | failure (msg : String) : StatOutcome
  | found (isFile : Bool) (size : Nat) (content : String) : StatOutcome
deriving DecidableEq, Repr

/-- The result record of `readFileStats`; fields the code does not set on a
branch are `none`. -/
structure StatsResult where
  success : Bool
  fileExists : Bool
  size : Option Nat
  lineCount : Option Nat
  message : String
deriving DecidableEq, Repr

/-- `readFileStats`: `ENOENT` is reported as `success:true` with
`exists:false`; a path that is not a regular file and any other I/O error
are `success:false`; a regular file reports its size and
`content.split("\n").length`. -/
def readFileStats (path : String) (st : StatOutcome) : StatsResult :=
  match st with
  | .enoent => ⟨true, false, some 0, some 0, "File does not exist"⟩
  | .failure m => ⟨false, false, none, none, "Error getting file stats: " ++ m⟩
  | .found false _ _ => ⟨false, false, none, none, "Path exists but is not a file: " ++ path⟩
  | .found true size content =>
    ⟨true, true, some size, some (content.splitOn "\n").length, "File stats retrieved successfully"⟩

/-- The result record of `readFileChunk`. -/
structure ChunkResult where
  success : Bool
  content : Option String
  readLines : Option Nat
  isEOF : Option Bool
  message : String
deriving DecidableEq, Repr

/-- The `readline` event loop of `readFileChunk`: skip lines while
`currentLineNumber < startLine`, push each later line, and close (deliver
no further lines) as soon as `lines.length >= lineCount` — the length test
runs after the push.  `acc` holds collected lines in reverse. -/
def chunkGo (startLine lineCount : Nat) : List String → Nat → List String → List String
  | [], _, acc => acc.reverse
  | ln :: rest, curr, acc =>
    if curr < startLine then chunkGo startLine lineCount rest (curr + 1) acc
    else
      let acc2 := ln :: acc
      if lineCount ≤ acc2.length then acc2.reverse
      else chunkGo startLine lineCount rest (curr + 1) acc2

/-- The file as `readFileChunk` can see it: missing, or a sequence of
lines (the stream-level error branch is outside every claim). -/
inductive FileAccess where
  | missing : FileAccess
  | readable (lines : List String) : FileAccess
deriving DecidableEq, Repr

/-- `readFileChunk` over the line-model of the file: the `ENOENT` branch,
the zero-lines-collected branch ("File is empty"), and the normal branch
joining the collected lines with newlines. -/
def readFileChunk (fa : FileAccess) (startLine lineCount : Nat) : ChunkResult :=
  match fa with
  | .missing => ⟨false, none, none, none, "File does not exist"⟩
  | .readable fileLines =>
    let lines := chunkGo startLine lineCount fileLines 0 []
    if lines.length = 0 then ⟨true, some "", some 0, some true, "File is empty"⟩
    else
      ⟨true, some (String.intercalate "\n" lines), some lines.length,
        some (decide (lines.length < lineCount)),
        "Read " ++ toString lines.length ++ " lines from file"⟩

/-! ## RateLimiter (`RateLimiter.ts`) -/

/-- The retry loop of `RateLimiter.execute` over an attempt-indexed oracle
`op` (attempt `i` = the `i`-th invocation of the wrapped operation);
`budget` is the number of retries still allowed.  Returns how many times
`op` was invoked together with the final outcome: the first success, or —
once `retries > maxRetries` — the last error rethrown unchanged.  The
backoff sleeps do not affect the outcome and are not modelled here. -/
def rlGo {α : Type} (op : Nat → Except String α) : Nat → Nat → Nat × Except String α
  | i, 0 =>
    match op i with
    | .ok a => (1, .ok a)
    | .error e => (1, .error e)
  | i, b + 1 =>
    match op i with
    | .ok a => (1, .ok a)
    | .error _ =>
      let p := rlGo op (i + 1) b
      (p.1 + 1, p.2)

/-- `RateLimiter.execute(fn)` with `maxRetries`: start at attempt 0 with
the full retry budget. -/
def rlExecute {α : Type} (op : Nat → Except String α) (maxRetries : Nat) :
    Nat × Except String α :=
  rlGo op 0 maxRetries

/-- `RateLimiter.calculateDelay(retryCount)` with `Math.random()` made an
explicit argument `rand ∈ [0,1]`: `baseDelay * 2^(retryCount-1)` plus
jitter `rand * exponentialDelay * 0.5`. -/
def calculateDelay (baseDelay : ℚ) (retryCount : Nat) (rand : ℚ) : ℚ :=
  let exponentialDelay := baseDelay * 2 ^ (retryCount - 1)
  exponentialDelay + rand * exponentialDelay * (1 / 2)

/-! ## AgentController (`AgentController.ts`) -/

/-- The three history entry types. -/
inductive HistoryType where
  | plan : HistoryType
  | action : HistoryType
  | observation : HistoryType
deriving DecidableEq, Repr

/-- One history entry: type, content, `Date.now()` timestamp. -/
structure HistoryItem where
  type : HistoryType
  content : String
  timestamp : Nat
deriving DecidableEq, Repr

/-- The agent configuration; `maxIterations` is a positive integer per the
configuration contract. -/
structure AgentConfig where
  maxIterations : Nat
  llmModel : String
  confirmActions : Bool
deriving DecidableEq, Repr

/-- The mutable fields of an `AgentController`, plus `llmCalls` (how many
times `sendPrompt` has been called: the index into the LLM oracle, as a
jest-style mocked response sequence is indexed) and `tick` (the clock
index of the next `Date.now()` reading). -/
structure AgentState where
  history : List HistoryItem
  currentPlan : String
  iterationCount : Nat
  llmCalls : Nat
  tick : Nat
deriving DecidableEq, Repr

/-- The world around one agent run: the task, the config, the outcome of
each `sendPrompt` call (error = the message of a throw, after the rate
limiter and the "Failed to get response from LLM" rewrap), the behaviour
of the registered action implementations, and the `Date.now()` clock. -/
structure AgentEnv where
  task : String
  config : AgentConfig
  llm : Nat → String → Except String String
  impl : ImplOracle
  clock : Nat → Nat

/-- The state of a freshly constructed `AgentController`. -/
def initialState : AgentState := ⟨[], "", 0, 0, 0⟩

/-- `addToHistory`: push `{type, content, timestamp: Date.now()}`. -/
def addToHistory (clock : Nat → Nat) (st : AgentState) (ty : HistoryType) (content : String) :
    AgentState :=
  { st with history := st.history ++ [⟨ty, content, clock st.tick⟩], tick := st.tick + 1 }

/-- The per-schema block of the system prompt: name, description and the
required parameters with their descriptions. -/
def schemaBlock (nm : String) (sch : BaseActionSchema) : String :=
  let paramsDescription := String.intercalate "\n"
    (sch.required.map (fun p =>
      "- " ++ p ++ ": " ++ (match sch.parameters.lookup p with
        | some spec => spec.description
        | none => "")))
  "## " ++ nm ++ "\n" ++ sch.description ++ "\n\nParameters:\n" ++ paramsDescription

/-- `getSystemPromptBase`: the capability description rendered from every
registered schema, in the schema record's order. -/
def getSystemPromptBase : String :=
  "You are an AI assistant that helps users complete tasks. You work in steps:\n" ++
  "1. Analyze the task and decide on a plan\n" ++
  "2. Take actions one at a time to accomplish the plan\n" ++
  "3. Observe results and adjust your plan if needed\n\nAvailable actions:\n" ++
  String.intercalate "\n\n" (actionSchemasEntries.map (fun p => schemaBlock p.1 p.2)) ++
  "\n\nWhen executing actions, respond ONLY with a valid JSON object with this format:\n" ++
  "\x7b\n  \"action\": \x7b\n    \"name\": \"actionName\",\n    \"parameters\": \x7b\n" ++
  "      \"param1\": \"value1\",\n      \"param2\": \"value2\"\n    \x7d\n  \x7d\n\x7d\n\n" ++
  "The available actions are: " ++
  String.intercalate ", " (actionSchemasEntries.map Prod.fst) ++ ".\n"

/-- One rendered history entry: a fixed label per type, then the content. -/
def renderHistoryItem (item : HistoryItem) : String :=
  match item.type with
  | .plan => "PLAN:\n" ++ item.content
  | .action => "ACTION:\n" ++ item.content
  | .observation => "OBSERVATION:\n" ++ item.content

/-- `formatPrompt`: system prompt, task, the history in insertion order
(omitted while empty), and the closing instruction (mentioning the current
plan only when one is set). -/
def formatPrompt (env : AgentEnv) (st : AgentState) : String :=
  let systemPrompt := getSystemPromptBase
  let historyText := String.intercalate "\n\n" (st.history.map renderHistoryItem)
  systemPrompt ++ "\n\nTASK: " ++ env.task ++ "\n\n" ++
  (if historyText = "" then "" else "HISTORY:\n" ++ historyText ++ "\n\n") ++
  "\n\nBased on the task" ++
  (if st.currentPlan = "" then "" else " and your current plan: \"" ++ st.currentPlan ++ "\"") ++
  ", decide what action to take next.\nRespond with ONLY a valid JSON action object as described earlier."

/-- Property read `j.k` on a receiver already known to be neither
`undefined` nor `null` (so it cannot throw). -/
def jsMemberOk (j : Json) (k : String) : Option Json :=
  match j with
  | Json.obj fields => fields.getLast k
  | _ => none

/-- The strict comparison `action.name === "finish"`. -/
def nameIsFinish (nameV : Option Json) : Bool :=
  match nameV with
  | some (Json.str s) => s = "finish"
  | _ => false

/-- Escape the characters of a JSON string for output (the cases that
occur in this development). -/
def escapeJsonStr : List Char → String
  | [] => ""
  | '"' :: rest => "\\\"" ++ escapeJsonStr rest
  | '\\' :: rest => "\\\\" ++ escapeJsonStr rest
  | '\n' :: rest => "\\n" ++ escapeJsonStr rest
  | c :: rest => String.mk [c] ++ escapeJsonStr rest

mutual

/-- `JSON.stringify` on the model values, without the indentation
whitespace of the `(value, null, 2)` pretty form — no claim inspects the
serialized text, only which entries exist. -/
def stringifyJson : Json → String
  | .null => "null"
  | .bool true => "true"
  | .bool false => "false"
  | .num m e => toString m ++ (if e = 0 then "" else "e" ++ toString e)
  | .str s => "\"" ++ escapeJsonStr s.data ++ "\""
  | .arr items => "[" ++ stringifyArr items ++ "]"
  | .obj fields => "\x7b" ++ stringifyObj fields ++ "\x7d"

/-- Elements of an array, comma separated. -/
def stringifyArr : JsonArr → String
  | .nil => ""
  | .cons hd .nil => stringifyJson hd
  | .cons hd tl => stringifyJson hd ++ "," ++ stringifyArr tl

/-- Fields of an object, comma separated. -/
def stringifyObj : JsonObj → String
  | .nil => ""
  | .cons k v .nil => "\"" ++ k ++ "\":" ++ stringifyJson v
  | .cons k v tl => "\"" ++ k ++ "\":" ++ stringifyJson v ++ "," ++ stringifyObj tl

end

/-- Why `executeIteration` reported "done": the `finish` action
(success), or the iteration counter reaching `maxIterations` (forced
stop). -/
inductive StopReason where
  | finished : StopReason
  | maxedOut : StopReason
deriving DecidableEq, Repr

/-- `AgentController.executeIteration`.  The iteration counter is
incremented first; everything else runs inside one `try`: build the
prompt, call the LLM, parse the action, read `action.name` for the log
line, append the serialized action to history, dispatch to the executor,
append the serialized result, then check `finish` before the
max-iterations comparison.  Any throw is caught at the boundary and the
iteration reports "continue" (`none`) with whatever state the earlier
steps already committed. -/
def executeIteration (env : AgentEnv) (st : AgentState) : Option StopReason × AgentState :=
  let st1 := { st with iterationCount := st.iterationCount + 1 }
  let prompt := formatPrompt env st1
  match env.llm st1.llmCalls prompt with
  | .error _ => (none, { st1 with llmCalls := st1.llmCalls + 1 })
  | .ok content =>
    let st2 := { st1 with llmCalls := st1.llmCalls + 1 }
    match parseAction content with
    | .error _ => (none, st2)
    | .ok none => (none, st2)
    | .ok (some Json.null) => (none, st2)
    | .ok (some actJson) =>
      let nameV := jsMemberOk actJson "name"
      let st3 := addToHistory env.clock st2 .action (stringifyJson actJson)
      match executeAction env.impl (some actJson) with
      | .error _ => (none, st3)
      | .ok result =>
        let st4 := addToHistory env.clock st3 .observation (stringifyJson result)
        if nameIsFinish nameV then (some .finished, st4)
        else if env.config.maxIterations ≤ st4.iterationCount then (some .maxedOut, st4)
        else (none, st4)

/-- Up to `n` turns of the `while (!done)` loop of `AgentController.run`:
stops as soon as an iteration reports done.  `run` itself terminates
within `n` iterations exactly when `(runSteps env n st).1` is `some _`. -/
def runSteps (env : AgentEnv) : Nat → AgentState → Option StopReason × AgentState
  | 0, st => (none, st)
  | n + 1, st =>
    match executeIteration env st with
    | (some r, st2) => (some r, st2)
    | (none, st2) => runSteps env n st2

/-! ## Concrete instances used by witnesses and counterexamples -/

/-- The required-parameter list of a registered action (empty for an
unregistered name, whose execution throws before validation). -/
def requiredOf (nm : String) : List String :=
  match actionSchemas nm with
  | some sch => sch.required
  | none => []

/-- An implementation oracle that returns its `parameters` value as the
result object: exhibits that the executor hands parameters through
unchanged. -/
def echoImpl : ImplOracle := fun _ ps =>
  .returns (match ps with
    | some j => j
    | none => Json.null)

/-- An implementation oracle that always succeeds with `{success:true}`. -/
def okImpl : ImplOracle := fun _ _ =>
  .returns (Json.obj (JsonObj.cons "success" (Json.bool true) JsonObj.nil))

/-- A model reply selecting the `shell` action. -/
def respShellAction : String :=
  "\x7b\"action\": \x7b\"name\": \"shell\", \"parameters\": \x7b\"command\": \"ls\"\x7d\x7d\x7d"

/-- A model reply selecting the `finish` action. -/
def respFinishAction : String :=
  "\x7b\"action\": \x7b\"name\": \"finish\", \"parameters\": \x7b\"reason\": \"done\"\x7d\x7d\x7d"

/-- A model reply naming an unregistered action. -/
def respBogusAction : String :=
  "\x7b\"action\": \x7b\"name\": \"bogus\", \"parameters\": \x7b\x7d\x7d\x7d"

/-- A syntactically valid JSON reply of the wrong shape: no `action`
field. -/
def respWrongShape : String := "\x7b\"foo\": 1\x7d"

/-- A valid JSON document that contains a triple-backtick run: the input
refuting the fence round-trip identity. -/
def strTrickyJson : String := "[\"```1```\"]"

/-- Claim C1's failing input: `maxIterations = 1` and a model call that
throws on every iteration. -/
def envAllLLMFail : AgentEnv :=
  ⟨"task", ⟨1, "model", false⟩,
   fun _ _ => .error "Failed to get response from LLM: network down",
   okImpl, fun t => t⟩

/-- An environment whose model reply always names the unregistered action
`bogus`, making `ActionExecutor.execute` throw each iteration. -/
def envExecThrow : AgentEnv :=
  ⟨"task", ⟨5, "model", false⟩, fun _ _ => .ok respBogusAction, okImpl, fun t => t⟩

/-- An environment whose model replies are valid JSON of the wrong shape
(no `action` field). -/
def envWrongShape : AgentEnv :=
  ⟨"task", ⟨5, "model", false⟩, fun _ _ => .ok respWrongShape, okImpl, fun t => t⟩

/-- A scripted environment: `shell` on the first call, `finish` on every
later call, implementations succeeding. -/
def envScripted : AgentEnv :=
  ⟨"task", ⟨5, "model", false⟩,
   fun i _ => .ok (if i = 0 then respShellAction else respFinishAction),
   okImpl, fun t => t⟩

/-- The action-name script of `envScripted`. -/
def nmScript : Nat → String := fun i => if i = 0 then "shell" else "finish"

/-- A well-behaved model call: for whatever prompt it is sent, call `i`
returns text that parses to a non-null action value whose `name` is the
string `nm` and whose execution returns a result (throws nothing). -/
def GoodCall (env : AgentEnv) (i : Nat) (nm : String) : Prop :=
  ∀ prompt, ∃ s j r, env.llm i prompt = .ok s ∧ parseAction s = .ok (some j) ∧
    j ≠ Json.null ∧ jsMemberOk j "name" = some (Json.str nm) ∧
    executeAction env.impl (some j) = .ok r

/-! ## Theorems -/

/-- On an oracle that fails every attempt, the retry loop makes exactly
`budget + 1` invocations, starting at attempt `i`, and rethrows the error
of the last attempt. -/
theorem rlGo_all_fail {α : Type} (f : Nat → String) (i b : Nat) :
    rlGo (α := α) (fun j => .error (f j)) i b = (b + 1, .error (f (i + b))) := by
  induction b generalizing i with
  | zero => simp [rlGo]
  | succ b ih =>
    have h := ih (i + 1)
    rw [show i + 1 + b = i + (b + 1) from by omega] at h
    simp [rlGo, h]

/-- Claim C7: a wrapped operation that throws on every attempt is invoked
exactly `maxRetries + 1` times by `RateLimiter.execute` (one initial try
plus `maxRetries` retries), and the error of the last invocation is
rethrown with its message unchanged. -/
theorem claim_C7_retry_budget {α : Type} (op : Nat → Except String α) (f : Nat → String)
    (maxRetries : Nat) (hfail : ∀ i, op i = .error (f i)) :
    (rlExecute op maxRetries).1 = maxRetries + 1 ∧
    (rlExecute op maxRetries).2 = .error (f maxRetries) ∧
    op maxRetries = .error (f maxRetries) := by
  have hop : op = fun j => .error (f j) := funext hfail
  subst hop
  rw [rlExecute, rlGo_all_fail]
  exact ⟨rfl, by simp, rfl⟩

/-- Witness for claim C7: the always-failing operation of the test suite
with `maxRetries = 3` is invoked 4 times and its message is rethrown. -/
theorem claim_C7_retry_budget_witness :
    (rlExecute (fun _ => (.error "Rate limit exceeded" : Except String Nat)) 3).1 = 3 + 1 ∧
    (rlExecute (fun _ => (.error "Rate limit exceeded" : Except String Nat)) 3).2 =
      .error "Rate limit exceeded" := by
  have h := claim_C7_retry_budget (fun _ => (.error "Rate limit exceeded" : Except String Nat))
    (fun _ => "Rate limit exceeded") 3 (fun _ => rfl)
  exact ⟨h.1, h.2.1⟩

/-- Claim C9: `readFileStats` reports a not-found stat as success
(`{success:true, exists:false, size:0, lineCount:0, message:"File does not
exist"}`), and `success:false` happens exactly for a non-ENOENT I/O error
or a path that exists but is not a regular file. -/
theorem claim_C9_stats_absence_is_success (path : String) :
    readFileStats path .enoent =
      ⟨true, false, some 0, some 0, "File does not exist"⟩ ∧
    ∀ st : StatOutcome, (readFileStats path st).success = false ↔
      ((∃ m, st = .failure m) ∨ ∃ sz c, st = .found false sz c) := by
  refine ⟨rfl, ?_⟩
  intro st
  cases st with
  | enoent => simp [readFileStats]
  | failure m => simp [readFileStats]
  | found isFile sz c => cases isFile <;> simp [readFileStats]

/-- Collect phase of the chunk reader: once the skip phase is over
(`startLine ≤ curr`) and the quota is not yet reached, the reader collects
exactly the next `lineCount - acc.length` lines. -/
theorem chunkGo_collect (s c : Nat) :
    ∀ (l : List String) (curr : Nat) (acc : List String), s ≤ curr → acc.length < c →
    chunkGo s c l curr acc = acc.reverse ++ l.take (c - acc.length) := by
  intro l
  induction l with
  | nil => intro curr acc _ _; simp [chunkGo]
  | cons ln rest ih =>
    intro curr acc hcur hlen
    rw [chunkGo]
    rw [if_neg (Nat.not_lt.mpr hcur)]
    simp only []
    by_cases h2 : c ≤ (ln :: acc).length
    · rw [if_pos h2]
      have hc1 : c - acc.length = 1 := by simp at h2; omega
      simp [hc1]
    · rw [if_neg h2]
      rw [ih (curr + 1) (ln :: acc) (Nat.le_succ_of_le hcur) (by simp at h2 ⊢; omega)]
      have hc1 : c - acc.length = (c - (ln :: acc).length) + 1 := by simp at h2 ⊢; omega
      rw [hc1, List.take_succ_cons]
      simp

/-- Skip phase of the chunk reader: with an empty accumulator and
`curr ≤ startLine`, the reader returns the `lineCount`-line window starting
`startLine - curr` lines further on (for a positive `lineCount`). -/
theorem chunkGo_skip (s c : Nat) (hc : 1 ≤ c) :
    ∀ (l : List String) (curr : Nat), curr ≤ s →
    chunkGo s c l curr [] = (l.drop (s - curr)).take c := by
  intro l
  induction l with
  | nil => intro curr _; simp [chunkGo]
  | cons ln rest ih =>
    intro curr hcur
    by_cases h : curr < s
    · rw [chunkGo, if_pos h, ih (curr + 1) h]
      rw [show s - curr = (s - (curr + 1)) + 1 from by omega, List.drop_succ_cons]
    · have hcs : s ≤ curr := Nat.not_lt.mp h
      rw [chunkGo_collect s c (ln :: rest) curr [] hcs (by simpa using hc)]
      rw [show s - curr = 0 from by omega]
      simp

/-- Claim C5 (amended to `lineCount ≥ 1`): on an existing regular file seen
as its lines, `readFileChunk` returns success with the window
`(lines.drop startLine).take lineCount` joined by newlines, its length as
`readLines`, `isEOF` true exactly when fewer than `lineCount` lines were
available after the skip, and the fixed "File is empty" record when the
window is empty. -/
theorem claim_C5_chunk_window (fileLines : List String) (startLine lineCount : Nat)
    (hc : 1 ≤ lineCount) :
    readFileChunk (.readable fileLines) startLine lineCount =
      (if ((fileLines.drop startLine).take lineCount).length = 0 then
        ⟨true, some "", some 0, some true, "File is empty"⟩
      else
        ⟨true, some (String.intercalate "\n" ((fileLines.drop startLine).take lineCount)),
          some ((fileLines.drop startLine).take lineCount).length,
          some (decide (fileLines.length - startLine < lineCount)),
          "Read " ++ toString ((fileLines.drop startLine).take lineCount).length
            ++ " lines from file"⟩) := by
  have hwin : chunkGo startLine lineCount fileLines 0 [] =
      (fileLines.drop startLine).take lineCount := by
    simpa using chunkGo_skip startLine lineCount hc fileLines 0 (Nat.zero_le _)
  have heof : ((fileLines.drop startLine).take lineCount).length < lineCount ↔
      fileLines.length - startLine < lineCount := by
    rw [List.length_take, List.length_drop]
    omega
  rw [readFileChunk, hwin]
  by_cases hz : ((fileLines.drop startLine).take lineCount).length = 0
  · rw [if_pos hz, if_pos hz]
  · rw [if_neg hz, if_neg hz]
    have : decide (((fileLines.drop startLine).take lineCount).length < lineCount) =
        decide (fileLines.length - startLine < lineCount) := by
      simp only [decide_eq_decide]
      exact heof
    rw [this]

/-- Witness for claim C5: the spec's boundary example, a 5-line file read
with `startLine = 0, lineCount = 3` — exactly 3 lines and `isEOF:false`. -/
theorem claim_C5_chunk_window_witness :
    readFileChunk (.readable ["l1", "l2", "l3", "l4", "l5"]) 0 3 =
      ⟨true, some "l1\nl2\nl3", some 3, some false, "Read 3 lines from file"⟩ := by
  have h := claim_C5_chunk_window ["l1", "l2", "l3", "l4", "l5"] 0 3 (by decide)
  exact h.trans (by decide)

/-- Counterexample for claim C5 as frozen: at `lineCount = 0` the reader
pushes a line before testing the quota, so it collects 1 line instead of
the zero lines ("File is empty" record) the claim requires. -/
theorem claim_C5_counterexample :
    (readFileChunk (.readable ["only line"]) 0 0).readLines = some 1 ∧
    readFileChunk (.readable ["only line"]) 0 0 ≠
      ⟨true, some "", some 0, some true, "File is empty"⟩ := by
  exact ⟨rfl, by decide⟩

/-- Reading `name` off a well-typed action value. -/
theorem jsMember_mkAction_name (nm : String) (fields : JsonObj) :
    jsMember (mkAction nm fields) "name" = .ok (some (Json.str nm)) := rfl

/-- Reading `parameters` off a well-typed action value. -/
theorem jsMember_mkAction_params (nm : String) (fields : JsonObj) :
    jsMember (mkAction nm fields) "parameters" = .ok (some (Json.obj fields)) := rfl

/-- Validation succeeds exactly when every required key is present in the
parameters object — the value bound to the key is never inspected. -/
theorem validateParameters_ok_iff (nm : String) (fields : JsonObj) (req : List String) :
    validateParameters nm req (some (Json.obj fields)) = .ok () ↔
      ∀ p ∈ req, (fields.getLast p).isSome := by
  induction req with
  | nil => simp [validateParameters]
  | cons p rest ih =>
    rw [validateParameters]
    cases h : fields.getLast p with
    | none => simp [jsMember, h]
    | some v => simp [jsMember, h, ih]

/-- Validation reports the first required key missing from the parameters
object, with the exact "Missing required parameter" message. -/
theorem validateParameters_error_first (nm : String) (fields : JsonObj) :
    ∀ (req : List String) (p : String),
    req.find? (fun q => (fields.getLast q).isNone) = some p →
    validateParameters nm req (some (Json.obj fields)) =
      .error ("Missing required parameter \"" ++ p ++ "\" for action \"" ++ nm ++ "\"") := by
  intro req
  induction req with
  | nil => intro p h; simp [List.find?] at h
  | cons q rest ih =>
    intro p h
    rw [List.find?_cons] at h
    rw [validateParameters]
    cases hgl : fields.getLast q with
    | none =>
      rw [hgl] at h
      simp only [Option.isNone_none] at h
      cases h
      simp [jsMember, hgl]
    | some v =>
      rw [hgl] at h
      simp only [Option.isNone_some] at h
      simp only [jsMember, hgl]
      exact ih p h

/-- Registry and schema table stay in lock-step: every registered name has
a schema, whose required list is `requiredOf`. -/
theorem registered_schema (nm : String) (h : isActionRegistered nm = true) :
    ∃ sch, actionSchemas nm = some sch ∧ sch.required = requiredOf nm := by
  have hmem : nm ∈ registryNames := by
    simpa [isActionRegistered] using h
  rw [registryNames] at hmem
  simp only [List.mem_cons, List.not_mem_nil, or_false] at hmem
  rcases hmem with h1 | h1 | h1 | h1 | h1
  · subst h1; exact ⟨shellActionSchema, rfl, rfl⟩
  · subst h1; exact ⟨readFileStatsSchema, rfl, rfl⟩
  · subst h1; exact ⟨readFileChunkSchema, rfl, rfl⟩
  · subst h1; exact ⟨appendFileChunkSchema, rfl, rfl⟩
  · subst h1; exact ⟨finishActionSchema, rfl, rfl⟩

/-- `ActionExecutor.execute` on a well-typed action, unfolded past the
name/parameters reads. -/
theorem executeAction_mkAction (impl : ImplOracle) (nm : String) (fields : JsonObj) :
    executeAction impl (mkAction nm fields) =
      (if isActionRegistered nm then
        match actionSchemas nm with
        | none => .error ("Schema not found for action \"" ++ nm ++ "\"")
        | some schema =>
          match validateParameters nm schema.required (some (Json.obj fields)) with
          | .error e => .error e
          | .ok _ =>
            match impl nm (some (Json.obj fields)) with
            | .throws m => .ok (implFailureResult m)
            | .returns r => .ok r
       else .error ("Action \"" ++ nm ++ "\" is not registered")) := rfl

/-- `ActionExecutor.execute` once a registered action's validation has
succeeded: dispatch, catching an implementation throw. -/
theorem executeAction_validated (impl : ImplOracle) (nm : String) (fields : JsonObj)
    (sch : BaseActionSchema) (hreg : isActionRegistered nm = true)
    (hsch : actionSchemas nm = some sch)
    (hval : validateParameters nm sch.required (some (Json.obj fields)) = .ok ()) :
    executeAction impl (mkAction nm fields) =
      (match impl nm (some (Json.obj fields)) with
        | .throws m => .ok (implFailureResult m)
        | .returns r => .ok r) := by
  rw [executeAction_mkAction, if_pos hreg]
  simp only [hsch, hval]

/-- `ActionExecutor.execute` when validation throws: the error propagates
to the caller. -/
theorem executeAction_invalid (impl : ImplOracle) (nm : String) (fields : JsonObj)
    (sch : BaseActionSchema) (e : String) (hreg : isActionRegistered nm = true)
    (hsch : actionSchemas nm = some sch)
    (hval : validateParameters nm sch.required (some (Json.obj fields)) = .error e) :
    executeAction impl (mkAction nm fields) = .error e := by
  rw [executeAction_mkAction, if_pos hreg]
  simp only [hsch, hval]

/-- Claim C4: on a well-typed action, `ActionExecutor.execute` throws
exactly for an unregistered name or a missing schema-required parameter,
with the claimed messages; once validation passes, an exception from the
implementation is converted to `{success:false, error}` instead of
propagating. -/
theorem claim_C4_executor_validation (impl : ImplOracle) (nm : String) (fields : JsonObj) :
    ((∃ e, executeAction impl (mkAction nm fields) = .error e) ↔
      (isActionRegistered nm = false ∨ ∃ p ∈ requiredOf nm, fields.getLast p = none)) ∧
    (isActionRegistered nm = false →
      executeAction impl (mkAction nm fields) =
        .error ("Action \"" ++ nm ++ "\" is not registered")) ∧
    (∀ p, isActionRegistered nm = true →
      (requiredOf nm).find? (fun q => (fields.getLast q).isNone) = some p →
      executeAction impl (mkAction nm fields) =
        .error ("Missing required parameter \"" ++ p ++ "\" for action \"" ++ nm ++ "\"")) ∧
    (isActionRegistered nm = true →
      (∀ p ∈ requiredOf nm, (fields.getLast p).isSome) →
      ∀ m, impl nm (some (Json.obj fields)) = .throws m →
        executeAction impl (mkAction nm fields) = .ok (implFailureResult m)) := by
  by_cases hreg : isActionRegistered nm = true
  · obtain ⟨sch, hsch, hrequired⟩ := registered_schema nm hreg
    refine ⟨?_, ?_, ?_, ?_⟩
    · cases hval : validateParameters nm sch.required (some (Json.obj fields)) with
      | ok u =>
        cases u
        have hall := (validateParameters_ok_iff nm fields sch.required).mp hval
        rw [executeAction_validated impl nm fields sch hreg hsch hval]
        constructor
        · rintro ⟨e, he⟩
          cases himpl : impl nm (some (Json.obj fields)) <;> rw [himpl] at he <;> cases he
        · rintro (hfalse | ⟨p, hp, hnone⟩)
          · rw [hreg] at hfalse; cases hfalse
          · rw [hrequired] at hall
            have hps := hall p hp
            rw [hnone] at hps
            cases hps
      | error e =>
        rw [executeAction_invalid impl nm fields sch e hreg hsch hval]
        constructor
        · intro _
          right
          have hnotall : ¬ ∀ p ∈ sch.required, (fields.getLast p).isSome := by
            intro hall
            have hok := (validateParameters_ok_iff nm fields sch.required).mpr hall
            rw [hval] at hok
            cases hok
          push_neg at hnotall
          obtain ⟨p, hp, hnone⟩ := hnotall
          refine ⟨p, hrequired ▸ hp, ?_⟩
          cases h2 : fields.getLast p with
          | none => rfl
          | some v => rw [h2] at hnone; simp at hnone
        · intro _; exact ⟨e, rfl⟩
    · intro hfalse; rw [hfalse] at hreg; cases hreg
    · intro p _ hfind
      exact executeAction_invalid impl nm fields sch _ hreg hsch
        (validateParameters_error_first nm fields sch.required p (hrequired ▸ hfind))
    · intro _ hall m himpl
      rw [executeAction_validated impl nm fields sch hreg hsch
        ((validateParameters_ok_iff nm fields sch.required).mpr (hrequired ▸ hall)), himpl]
  · have hreg2 : isActionRegistered nm = false := by
      cases h : isActionRegistered nm with
      | true => exact absurd h hreg
      | false => rfl
    have hrun : executeAction impl (mkAction nm fields) =
        .error ("Action \"" ++ nm ++ "\" is not registered") := by
      rw [executeAction_mkAction, if_neg hreg]
    refine ⟨?_, fun _ => hrun, ?_, ?_⟩
    · rw [hrun]
      exact ⟨fun _ => Or.inl hreg2, fun _ => ⟨_, rfl⟩⟩
    · intro p htrue; exact absurd htrue hreg
    · intro htrue; exact absurd htrue hreg

/-- Claim C10: key presence is the whole validation test — whatever value
a required key is bound to (`null`, `""`, `false`, `0`, anything), the
action passes validation and the implementation receives the very
`parameters` object of the action, unchanged. -/
theorem claim_C10_presence_only (impl : ImplOracle) (nm : String) (fields : JsonObj)
    (hreg : isActionRegistered nm = true)
    (hpresent : ∀ p ∈ requiredOf nm, (fields.getLast p).isSome) :
    executeAction impl (mkAction nm fields) =
      (match impl nm (some (Json.obj fields)) with
        | .returns r => .ok r
        | .throws m => .ok (implFailureResult m)) := by
  obtain ⟨sch, hsch, hrequired⟩ := registered_schema nm hreg
  rw [executeAction_validated impl nm fields sch hreg hsch
    ((validateParameters_ok_iff nm fields sch.required).mpr (hrequired ▸ hpresent))]
  cases impl nm (some (Json.obj fields)) <;> rfl

/-- Witness for claim C10: `shell` with `command` bound to `null` passes
validation, and the echoing implementation receives exactly that
parameters object. -/
theorem claim_C10_presence_only_witness :
    executeAction echoImpl (mkAction "shell" (JsonObj.cons "command" Json.null JsonObj.nil)) =
      .ok (Json.obj (JsonObj.cons "command" Json.null JsonObj.nil)) := by
  have h := claim_C10_presence_only echoImpl "shell"
    (JsonObj.cons "command" Json.null JsonObj.nil) (by decide) (by decide)
  exact h.trans rfl

/-- Witness for claim C4's spec examples: `shell` with empty parameters
reports the missing `command`; the unregistered name `bogus` reports
non-registration. -/
theorem claim_C4_executor_validation_witness :
    executeAction okImpl (mkAction "shell" JsonObj.nil) =
      .error "Missing required parameter \"command\" for action \"shell\"" ∧
    executeAction okImpl (mkAction "bogus" JsonObj.nil) =
      .error "Action \"bogus\" is not registered" := by
  constructor
  · exact (claim_C4_executor_validation okImpl "shell" JsonObj.nil).2.2.1
      "command" (by decide) (by decide)
  · exact (claim_C4_executor_validation okImpl "bogus" JsonObj.nil).2.1 (by decide)

/-- One iteration of `envAllLLMFail`: the model call throws, the catch
reports "continue", the counter is already incremented, history untouched —
and the max-iterations check was never reached. -/
theorem executeIteration_envAllLLMFail (st : AgentState) :
    executeIteration envAllLLMFail st =
      (none, { st with iterationCount := st.iterationCount + 1, llmCalls := st.llmCalls + 1 }) := rfl

/-- The run loop under `envAllLLMFail`, from any state: after `n`
iterations it has still not stopped. -/
theorem runSteps_envAllLLMFail (n : Nat) :
    ∀ st : AgentState, runSteps envAllLLMFail n st =
      (none, { st with iterationCount := st.iterationCount + n, llmCalls := st.llmCalls + n }) := by
  induction n with
  | zero => intro st; rfl
  | succ n ih =>
    intro st
    have harith : st.iterationCount + 1 + n = st.iterationCount + (n + 1) := by omega
    have harith2 : st.llmCalls + 1 + n = st.llmCalls + (n + 1) := by omega
    simp only [runSteps, executeIteration_envAllLLMFail, ih, harith, harith2]

/-- Claim C1, evaluated at the failing input: with `maxIterations = 1` and
a model call that throws on every iteration, `run` never reaches `DONE` —
each failure is counted as an iteration and the loop continues past it,
but after any number `n` of iterations the loop is still running
(`none`), even once the iteration counter has passed `maxIterations`; the
max-iterations check sits inside the `try` after the model call, so it is
skipped on every failing iteration and the claimed forced stop never
happens. -/
theorem claim_C1_loop_never_reaches_done (n : Nat) :
    (runSteps envAllLLMFail n initialState).1 = none ∧
    (runSteps envAllLLMFail n initialState).2.iterationCount = n ∧
    (runSteps envAllLLMFail n initialState).2.history = [] ∧
    envAllLLMFail.config.maxIterations = 1 := by
  rw [runSteps_envAllLLMFail]
  exact ⟨rfl, by simp [initialState], rfl, rfl⟩

/-- An iteration whose model call throws: nothing is appended, counters
move, the loop continues. -/
theorem executeIteration_llm_error (env : AgentEnv) (st : AgentState) (e : String)
    (hllm : env.llm st.llmCalls
      (formatPrompt env { st with iterationCount := st.iterationCount + 1 }) = .error e) :
    executeIteration env st =
      (none, { st with iterationCount := st.iterationCount + 1, llmCalls := st.llmCalls + 1 }) := by
  simp only [executeIteration, hllm]

/-- An iteration whose reply fails at the parse step proper, or parses to
an `undefined` or `null` action (so reading `action.name` throws before
any history append): nothing is appended, the loop continues. -/
theorem executeIteration_parse_failure (env : AgentEnv) (st : AgentState) (s : String)
    (hllm : env.llm st.llmCalls
      (formatPrompt env { st with iterationCount := st.iterationCount + 1 }) = .ok s)
    (hparse : (∃ e, parseAction s = .error e) ∨
      parseAction s = .ok none ∨ parseAction s = .ok (some Json.null)) :
    executeIteration env st =
      (none, { st with iterationCount := st.iterationCount + 1, llmCalls := st.llmCalls + 1 }) := by
  rcases hparse with ⟨e, hp⟩ | hp | hp <;> simp only [executeIteration, hllm, hp]

/-- An iteration in which `ActionExecutor.execute` throws after the action
parsed: the serialized action has already been appended to history and
stays there; no observation follows; the loop continues. -/
theorem executeIteration_executor_throw (env : AgentEnv) (st : AgentState) (s : String)
    (j : Json) (e : String)
    (hllm : env.llm st.llmCalls
      (formatPrompt env { st with iterationCount := st.iterationCount + 1 }) = .ok s)
    (hparse : parseAction s = .ok (some j)) (hnn : j ≠ Json.null)
    (hexec : executeAction env.impl (some j) = .error e) :
    executeIteration env st =
      (none, addToHistory env.clock
        { st with iterationCount := st.iterationCount + 1, llmCalls := st.llmCalls + 1 }
        .action (stringifyJson j)) := by
  simp only [executeIteration, hllm, hparse]
  cases j with
  | null => exact absurd rfl hnn
  | bool b => simp only [hexec]
  | num m e2 => simp only [hexec]
  | str s2 => simp only [hexec]
  | arr a => simp only [hexec]
  | obj o => simp only [hexec]

/-- Claim C2 as amended: an error thrown before the action append (model
call failure, parse failure, or the TypeError from reading `.name` of an
`undefined`/`null` action) leaves history exactly as it was; an exception
raised by `ActionExecutor.execute`, however, leaves the already-appended
`action` entry in history (and appends no observation).  In each case the
iteration reports "continue". -/
theorem claim_C2_error_iteration_trace (env : AgentEnv) (st : AgentState) :
    (∀ e, env.llm st.llmCalls
        (formatPrompt env { st with iterationCount := st.iterationCount + 1 }) = .error e →
      (executeIteration env st).1 = none ∧
      (executeIteration env st).2.history = st.history) ∧
    (∀ s, env.llm st.llmCalls
        (formatPrompt env { st with iterationCount := st.iterationCount + 1 }) = .ok s →
      ((∃ e, parseAction s = .error e) ∨
        parseAction s = .ok none ∨ parseAction s = .ok (some Json.null)) →
      (executeIteration env st).1 = none ∧
      (executeIteration env st).2.history = st.history) ∧
    (∀ s j e, env.llm st.llmCalls
        (formatPrompt env { st with iterationCount := st.iterationCount + 1 }) = .ok s →
      parseAction s = .ok (some j) → j ≠ Json.null →
      executeAction env.impl (some j) = .error e →
      (executeIteration env st).1 = none ∧
      (executeIteration env st).2.history =
        st.history ++ [⟨.action, stringifyJson j, env.clock st.tick⟩]) := by
  refine ⟨?_, ?_, ?_⟩
  · intro e hllm
    rw [executeIteration_llm_error env st e hllm]
    exact ⟨rfl, rfl⟩
  · intro s hllm hparse
    rw [executeIteration_parse_failure env st s hllm hparse]
    exact ⟨rfl, rfl⟩
  · intro s j e hllm hparse hnn hexec
    rw [executeIteration_executor_throw env st s j e hllm hparse hnn hexec]
    exact ⟨rfl, rfl⟩

/-- Counterexample for claim C2 as frozen: with the model naming the
unregistered action `bogus`, the executor throws (an error during steps
2–7), yet the failed iteration leaves one `action` entry in history — the
history at the start of the next iteration differs from the history at the
start of the failed one. -/
theorem claim_C2_counterexample :
    parseAction respBogusAction = .ok (mkAction "bogus" JsonObj.nil) ∧
    executeAction envExecThrow.impl (mkAction "bogus" JsonObj.nil) =
      .error "Action \"bogus\" is not registered" ∧
    (executeIteration envExecThrow initialState).1 = none ∧
    initialState.history.length = 0 ∧
    (executeIteration envExecThrow initialState).2.history.length = 1 := by
  exact ⟨rfl, rfl, rfl, rfl, rfl⟩

/-- Witness for claim C2's amended statement, at the same concrete input:
the executor-throw case applied to `envExecThrow` exhibits the appended
action entry. -/
theorem claim_C2_error_iteration_trace_witness :
    (executeIteration envExecThrow initialState).1 = none ∧
    (executeIteration envExecThrow initialState).2.history =
      [⟨.action, stringifyJson (Json.obj (JsonObj.cons "name" (Json.str "bogus")
        (JsonObj.cons "parameters" (Json.obj JsonObj.nil) JsonObj.nil))), 0⟩] := by
  have h := (claim_C2_error_iteration_trace envExecThrow initialState).2.2
    respBogusAction
    (Json.obj (JsonObj.cons "name" (Json.str "bogus")
      (JsonObj.cons "parameters" (Json.obj JsonObj.nil) JsonObj.nil)))
    "Action \"bogus\" is not registered" rfl rfl (fun hx => Json.noConfusion hx) rfl
  exact ⟨h.1, h.2⟩

/-- Claim C6 as amended: the parse step raises an error only for invalid
JSON (or a JSON `null` document, whose `parsed.action` read throws inside
`parseAction`); a syntactically valid JSON reply of any other shape passes
the parse step — `parseAction` returns its `action` member, `undefined`
when the field is absent — and in the absent case the iteration fails
later (reading `action.name`), is caught at the iteration boundary, and
the loop proceeds to the next iteration with history unchanged. -/
theorem claim_C6_wrong_shape_passes_parse :
    (∀ (s : String) (j : Json), parseJSON s = .ok j → j ≠ Json.null →
      parseAction s = .ok (jsMemberOk j "action")) ∧
    (∀ (env : AgentEnv) (st : AgentState) (s : String),
      env.llm st.llmCalls
        (formatPrompt env { st with iterationCount := st.iterationCount + 1 }) = .ok s →
      parseAction s = .ok none →
      (executeIteration env st).1 = none ∧
      (executeIteration env st).2.history = st.history) := by
  constructor
  · intro s j h hnn
    simp only [parseAction, h]
    cases j with
    | null => exact absurd rfl hnn
    | bool b => rfl
    | num m e => rfl
    | str s2 => rfl
    | arr a => rfl
    | obj o => rfl
  · intro env st s hllm hparse
    rw [executeIteration_parse_failure env st s hllm (Or.inr (Or.inl hparse))]
    exact ⟨rfl, rfl⟩

/-- Counterexample for claim C6 as frozen: `{"foo": 1}` is syntactically
valid JSON of the wrong shape, yet the parse step raises no error — it
returns the `undefined` action. -/
theorem claim_C6_counterexample :
    parseJSON respWrongShape = .ok (Json.obj (JsonObj.cons "foo" (Json.num 1 0) JsonObj.nil)) ∧
    parseAction respWrongShape = .ok none ∧
    ∀ e, parseAction respWrongShape ≠ .error e := by
  refine ⟨rfl, rfl, ?_⟩
  intro e h
  exact Except.noConfusion ((rfl : parseAction respWrongShape = .ok none).symm.trans h)

/-- Witness for claim C6's amended statement: a reply with no `action`
field leaves the loop running with history unchanged. -/
theorem claim_C6_wrong_shape_passes_parse_witness :
    (executeIteration envWrongShape initialState).1 = none ∧
    (executeIteration envWrongShape initialState).2.history = ([] : List HistoryItem) := by
  exact claim_C6_wrong_shape_passes_parse.2 envWrongShape initialState respWrongShape rfl rfl

/-- An iteration whose reply parses to a valid action that executes
without throwing: both history entries are appended, then the `finish`
check runs before the max-iterations check. -/
theorem executeIteration_good_action (env : AgentEnv) (st : AgentState) (s : String)
    (j r : Json)
    (hllm : env.llm st.llmCalls
      (formatPrompt env { st with iterationCount := st.iterationCount + 1 }) = .ok s)
    (hparse : parseAction s = .ok (some j)) (hnn : j ≠ Json.null)
    (hexec : executeAction env.impl (some j) = .ok r) :
    executeIteration env st =
      (let st4 := addToHistory env.clock (addToHistory env.clock
         { st with iterationCount := st.iterationCount + 1, llmCalls := st.llmCalls + 1 }
         .action (stringifyJson j)) .observation (stringifyJson r)
       if nameIsFinish (jsMemberOk j "name") then (some .finished, st4)
       else if env.config.maxIterations ≤ st.iterationCount + 1 then (some .maxedOut, st4)
       else (none, st4)) := by
  simp only [executeIteration, hllm, hparse]
  cases j with
  | null => exact absurd rfl hnn
  | bool b => simp only [hexec]; rfl
  | num m e2 => simp only [hexec]; rfl
  | str s2 => simp only [hexec]; rfl
  | arr a => simp only [hexec]; rfl
  | obj o => simp only [hexec]; rfl

/-- A well-behaved call makes the iteration outcome a function of the
action's name and the incremented counter alone: `finish` wins over the
max-iterations stop, which fires exactly when the incremented counter has
reached `maxIterations`. -/
theorem executeIteration_goodCall (env : AgentEnv) (st : AgentState) (nm : String)
    (h : GoodCall env st.llmCalls nm) :
    ∃ st2, executeIteration env st =
      ((if nm = "finish" then some StopReason.finished
        else if env.config.maxIterations ≤ st.iterationCount + 1 then some .maxedOut
        else none), st2) ∧
      st2.iterationCount = st.iterationCount + 1 ∧ st2.llmCalls = st.llmCalls + 1 := by
  obtain ⟨s, j, r, hllm, hparse, hnn, hname, hexec⟩ :=
    h (formatPrompt env { st with iterationCount := st.iterationCount + 1 })
  refine ⟨addToHistory env.clock (addToHistory env.clock
    { st with iterationCount := st.iterationCount + 1, llmCalls := st.llmCalls + 1 }
    .action (stringifyJson j)) .observation (stringifyJson r), ?_, rfl, rfl⟩
  rw [executeIteration_good_action env st s j r hllm hparse hnn hexec, hname]
  by_cases hfin : nm = "finish"
  · simp [nameIsFinish, hfin]
  · by_cases hmax : env.config.maxIterations ≤ st.iterationCount + 1
    · simp [nameIsFinish, hfin, hmax]
    · simp [nameIsFinish, hfin, hmax]

/-- One turn of the run loop is one iteration. -/
theorem runSteps_one (env : AgentEnv) (st : AgentState) :
    runSteps env 1 st = executeIteration env st := by
  cases h : executeIteration env st with
  | mk fst snd => cases fst <;> simp [runSteps, h]

/-- The run loop composes: while the first `a` turns have not stopped,
running `a + b` turns continues from where the first `a` left off. -/
theorem runSteps_add (env : AgentEnv) :
    ∀ (a b : Nat) (st : AgentState), (runSteps env a st).1 = none →
    runSteps env (a + b) st = runSteps env b (runSteps env a st).2 := by
  intro a
  induction a with
  | zero => intro b st _; simp [runSteps]
  | succ a ih =>
    intro b st h
    cases hstep : executeIteration env st with
    | mk fst snd =>
      cases fst with
      | some r => simp [runSteps, hstep] at h
      | none =>
        have h2 : (runSteps env a snd).1 = none := by
          simpa [runSteps, hstep] using h
        calc runSteps env (a + 1 + b) st
            = runSteps env (a + b + 1) st := by rw [show a + 1 + b = a + b + 1 from by omega]
          _ = runSteps env (a + b) snd := by simp [runSteps, hstep]
          _ = runSteps env b (runSteps env a snd).2 := ih b snd h2
          _ = runSteps env b (runSteps env (a + 1) st).2 := by simp [runSteps, hstep]

/-- While the script stays good, non-`finish`, and strictly below the
iteration budget, the run loop keeps going, counting one iteration and one
model call per turn. -/
theorem runSteps_good_continue (env : AgentEnv) (nm : Nat → String) :
    ∀ (n : Nat) (st : AgentState),
    st.llmCalls = st.iterationCount →
    (∀ i, i < n → GoodCall env (st.llmCalls + i) (nm (st.llmCalls + i))) →
    (∀ i, i < n → nm (st.llmCalls + i) ≠ "finish") →
    st.iterationCount + n < env.config.maxIterations →
    (runSteps env n st).1 = none ∧
    (runSteps env n st).2.iterationCount = st.iterationCount + n ∧
    (runSteps env n st).2.llmCalls = st.llmCalls + n := by
  intro n
  induction n with
  | zero => intro st _ _ _ _; exact ⟨rfl, by simp [runSteps], by simp [runSteps]⟩
  | succ n ih =>
    intro st hcount hgood hnf hmax
    have hg0 : GoodCall env st.llmCalls (nm st.llmCalls) := by
      have := hgood 0 (by omega); simpa using this
    obtain ⟨st2, hstep, hic, hlc⟩ := executeIteration_goodCall env st (nm st.llmCalls) hg0
    have hnf0 : nm st.llmCalls ≠ "finish" := by
      have := hnf 0 (by omega); simpa using this
    have hout : executeIteration env st = (none, st2) := by
      rw [hstep, if_neg hnf0, if_neg (by omega)]
    have hrs : runSteps env (n + 1) st = runSteps env n st2 := by
      simp [runSteps, hout]
    have ih2 := ih st2
      (by rw [hic, hlc, hcount])
      (fun i hi => by
        rw [hlc, show st.llmCalls + 1 + i = st.llmCalls + (i + 1) from by omega]
        exact hgood (i + 1) (by omega))
      (fun i hi => by
        rw [hlc, show st.llmCalls + 1 + i = st.llmCalls + (i + 1) from by omega]
        exact hnf (i + 1) (by omega))
      (by rw [hic]; omega)
    refine ⟨by rw [hrs]; exact ih2.1, ?_, ?_⟩
    · rw [hrs, ih2.2.1, hic]; omega
    · rw [hrs, ih2.2.2, hlc]; omega

/-- Claim C3: in a run where every model reply parses to a valid
registered action executing without throwing — (i) a `finish` action at
iteration `k ≤ maxIterations` ends the run after exactly `k` iterations
with the success outcome (the `finish` check beating the max-iterations
check, as the `k = maxIterations` instance shows); (ii) with no `finish`
ever, the run ends after exactly `maxIterations` iterations with the
forced-stop outcome. -/
theorem claim_C3_run_termination (env : AgentEnv) (nm : Nat → String) (k : Nat) :
    (1 ≤ k → k ≤ env.config.maxIterations →
      (∀ i, i < k → GoodCall env i (nm i)) →
      (∀ i, i < k - 1 → nm i ≠ "finish") →
      nm (k - 1) = "finish" →
      (runSteps env k initialState).1 = some StopReason.finished ∧
      (runSteps env k initialState).2.iterationCount = k ∧
      (∀ m, m < k → (runSteps env m initialState).1 = none)) ∧
    (1 ≤ env.config.maxIterations →
      (∀ i, i < env.config.maxIterations → GoodCall env i (nm i) ∧ nm i ≠ "finish") →
      (runSteps env env.config.maxIterations initialState).1 = some StopReason.maxedOut ∧
      (runSteps env env.config.maxIterations initialState).2.iterationCount =
        env.config.maxIterations ∧
      (∀ m, m < env.config.maxIterations →
        (runSteps env m initialState).1 = none)) := by
  constructor
  · intro h1 h2 hgood hnf hfin
    have hpre := runSteps_good_continue env nm (k - 1) initialState rfl
      (fun i hi => by simpa [initialState] using hgood i (by omega))
      (fun i hi => by simpa [initialState] using hnf i (by omega))
      (by simp [initialState]; omega)
    obtain ⟨hpn, hpic, hplc⟩ := hpre
    have hcomp : runSteps env k initialState =
        runSteps env 1 (runSteps env (k - 1) initialState).2 := by
      have h := runSteps_add env (k - 1) 1 initialState hpn
      rw [show k - 1 + 1 = k from by omega] at h
      exact h
    have hgM : GoodCall env (runSteps env (k - 1) initialState).2.llmCalls (nm (k - 1)) := by
      rw [hplc]
      simpa [initialState] using hgood (k - 1) (by omega)
    obtain ⟨st2, hstep, hic2, _⟩ :=
      executeIteration_goodCall env (runSteps env (k - 1) initialState).2 (nm (k - 1)) hgM
    have hstep2 : executeIteration env (runSteps env (k - 1) initialState).2 =
        (some StopReason.finished, st2) := by
      rw [hstep, if_pos hfin]
    refine ⟨?_, ?_, ?_⟩
    · rw [hcomp, runSteps_one, hstep2]
    · rw [hcomp, runSteps_one, hstep2]
      show st2.iterationCount = k
      rw [hic2, hpic]
      simp [initialState]
      omega
    · intro m hm
      exact (runSteps_good_continue env nm m initialState rfl
        (fun i hi => by simpa [initialState] using hgood i (by omega))
        (fun i hi => by simpa [initialState] using hnf i (by omega))
        (by simp [initialState]; omega)).1
  · intro h1 hgood
    have hpre := runSteps_good_continue env nm (env.config.maxIterations - 1) initialState rfl
      (fun i hi => by simpa [initialState] using (hgood i (by omega)).1)
      (fun i hi => by simpa [initialState] using (hgood i (by omega)).2)
      (by simp [initialState]; omega)
    obtain ⟨hpn, hpic, hplc⟩ := hpre
    have hcomp : runSteps env env.config.maxIterations initialState =
        runSteps env 1 (runSteps env (env.config.maxIterations - 1) initialState).2 := by
      have h := runSteps_add env (env.config.maxIterations - 1) 1 initialState hpn
      rw [show env.config.maxIterations - 1 + 1 = env.config.maxIterations from by omega] at h
      exact h
    have hgM : GoodCall env
        (runSteps env (env.config.maxIterations - 1) initialState).2.llmCalls
        (nm (env.config.maxIterations - 1)) := by
      rw [hplc]
      simpa [initialState] using (hgood (env.config.maxIterations - 1) (by omega)).1
    obtain ⟨st2, hstep, hic2, _⟩ := executeIteration_goodCall env
      (runSteps env (env.config.maxIterations - 1) initialState).2
      (nm (env.config.maxIterations - 1)) hgM
    have hnfM : nm (env.config.maxIterations - 1) ≠ "finish" :=
      (hgood (env.config.maxIterations - 1) (by omega)).2
    have hstep2 : executeIteration env
        (runSteps env (env.config.maxIterations - 1) initialState).2 =
        (some StopReason.maxedOut, st2) := by
      rw [hstep, if_neg hnfM, if_pos (by rw [hpic]; simp [initialState]; omega)]
    refine ⟨?_, ?_, ?_⟩
    · rw [hcomp, runSteps_one, hstep2]
    · rw [hcomp, runSteps_one, hstep2]
      show st2.iterationCount = env.config.maxIterations
      rw [hic2, hpic]
      simp [initialState]
      omega
    · intro m hm
      exact (runSteps_good_continue env nm m initialState rfl
        (fun i hi => by simpa [initialState] using (hgood i (by omega)).1)
        (fun i hi => by simpa [initialState] using (hgood i (by omega)).2)
        (by simp [initialState]; omega)).1

/-- Witness for claim C3: under the scripted environment (`shell` then
`finish`, `maxIterations = 5`) the run finishes after exactly 2
iterations. -/
theorem claim_C3_run_termination_witness :
    (runSteps envScripted 2 initialState).1 = some StopReason.finished ∧
    (runSteps envScripted 1 initialState).1 = none ∧
    (runSteps envScripted 2 initialState).2.iterationCount = 2 := by
  have h := (claim_C3_run_termination envScripted nmScript 2).1 (by omega) (by decide)
    (fun i hi => by
      have h01 : i = 0 ∨ i = 1 := by omega
      rcases h01 with rfl | rfl
      · intro prompt
        exact ⟨respShellAction,
          Json.obj (JsonObj.cons "name" (Json.str "shell")
            (JsonObj.cons "parameters"
              (Json.obj (JsonObj.cons "command" (Json.str "ls") JsonObj.nil)) JsonObj.nil)),
          Json.obj (JsonObj.cons "success" (Json.bool true) JsonObj.nil),
          rfl, rfl, fun hx => Json.noConfusion hx, rfl, rfl⟩
      · intro prompt
        exact ⟨respFinishAction,
          Json.obj (JsonObj.cons "name" (Json.str "finish")
            (JsonObj.cons "parameters"
              (Json.obj (JsonObj.cons "reason" (Json.str "done") JsonObj.nil)) JsonObj.nil)),
          Json.obj (JsonObj.cons "success" (Json.bool true) JsonObj.nil),
          rfl, rfl, fun hx => Json.noConfusion hx, rfl, rfl⟩)
    (fun i hi => by
      have hi0 : i = 0 := by omega
      subst hi0
      decide)
    rfl
  exact ⟨h.1, h.2.2 1 (by omega), h.2.1⟩

/-- Dropping leading whitespace is idempotent. -/
theorem trimL_idem (l : List Char) : trimL (trimL l) = trimL l := by
  induction l with
  | nil => rfl
  | cons c r ih =>
    by_cases hc : c.isWhitespace
    · simp [trimL, List.dropWhile_cons, hc] at ih ⊢
      exact ih
    · simp [trimL, List.dropWhile_cons, hc]

/-- Dropping trailing whitespace is idempotent. -/
theorem trimR_idem (l : List Char) : trimR (trimR l) = trimR l := by
  induction l with
  | nil => rfl
  | cons c r ih =>
    rw [trimR]
    cases h : trimR r with
    | nil =>
      by_cases hc : c.isWhitespace
      · simp [hc, trimR]
      · simp [hc, trimR]
    | cons d ds =>
      rw [h] at ih
      rw [trimR, ih]

/-- The two trims commute. -/
theorem trimLR_comm (l : List Char) : trimR (trimL l) = trimL (trimR l) := by
  induction l with
  | nil => rfl
  | cons c r ih =>
    by_cases hc : c.isWhitespace
    · rw [trimL, List.dropWhile_cons_of_pos hc]
      rw [trimR]
      cases h : trimR r with
      | nil =>
        rw [h] at ih
        simp [hc]
        exact ih
      | cons d ds =>
        rw [h] at ih
        rw [trimL, List.dropWhile_cons_of_pos hc]
        exact ih
    · rw [trimL, List.dropWhile_cons_of_neg hc]
      rw [trimR]
      cases h : trimR r with
      | nil => simp [hc, trimL, List.dropWhile_cons_of_neg hc]
      | cons d ds => simp [trimL, List.dropWhile_cons_of_neg hc]

/-- A trailing whitespace character does not change the right trim. -/
theorem trimR_append_ws (c : Char) (hc : c.isWhitespace = true) :
    ∀ l : List Char, trimR (l ++ [c]) = trimR l := by
  intro l
  induction l with
  | nil => simp [trimR, hc]
  | cons d r ih => rw [List.cons_append, trimR, ih, trimR]

/-- A leading whitespace character does not change the left trim. -/
theorem trimL_cons_ws (c : Char) (l : List Char) (hc : c.isWhitespace = true) :
    trimL (c :: l) = trimL l := by
  simp [trimL, List.dropWhile_cons_of_pos hc]

/-- `trim` is idempotent. -/
theorem jsTrim_idem (l : List Char) : jsTrim (jsTrim l) = jsTrim l := by
  rw [jsTrim, jsTrim, trimLR_comm (trimR l), trimR_idem, trimL_idem]

/-- Wrapping in the fence's newlines does not change the trim. -/
theorem jsTrim_wrap (x : List Char) :
    jsTrim ('\n' :: (x ++ ['\n'])) = jsTrim x := by
  have h1 : ('\n' :: (x ++ ['\n'])) = ('\n' :: x) ++ ['\n'] := by simp
  rw [h1, jsTrim, trimR_append_ws '\n' (by decide) ('\n' :: x), ← trimLR_comm,
    trimL_cons_ws '\n' x (by decide), trimLR_comm, ← jsTrim]

/-- `JSON.parse` is unchanged by pre-trimming its input. -/
theorem jparseChars_trim (x : List Char) : jparseChars (jsTrim x) = jparseChars x := by
  rw [jparseChars, jparseChars, jsTrim_idem]

/-- A separator that is a prefix occurs. -/
theorem containsSeq_of_isPrefixOf (sep l : List Char) (h : sep.isPrefixOf l = true) :
    containsSeq sep l = true := by
  cases l with
  | nil =>
    cases sep with
    | nil => rfl
    | cons a as => simp [List.isPrefixOf] at h
  | cons c rest => simp [containsSeq, h]

/-- With no occurrence in `c :: rest`, there is no occurrence at the head
and none in the tail. -/
theorem containsSeq_cons_false (sep : List Char) (c : Char) (rest : List Char)
    (h : containsSeq sep (c :: rest) = false) :
    sep.isPrefixOf (c :: rest) = false ∧ containsSeq sep rest = false := by
  simpa [containsSeq] using h

/-- An occurrence of a separator gives an occurrence of any prefix of it. -/
theorem containsSeq_of_prefix_contains (sep1 sep2 l : List Char) (hp : sep1 <+: sep2)
    (h : containsSeq sep2 l = true) : containsSeq sep1 l = true := by
  induction l with
  | nil =>
    simp only [containsSeq, List.isEmpty_iff] at h ⊢
    subst h
    exact List.prefix_nil.mp hp
  | cons c rest ih =>
    simp only [containsSeq, Bool.or_eq_true] at h ⊢
    rcases h with h | h
    · exact Or.inl (List.isPrefixOf_iff_prefix.mpr
        (hp.trans (List.isPrefixOf_iff_prefix.mp h)))
    · exact Or.inr (ih h)

/-- A triple-backtick-free text is also `"```json"`-free. -/
theorem contains_sepJson_false (l : List Char) (h : containsSeq sepFence l = false) :
    containsSeq sepJson l = false := by
  cases hc : containsSeq sepJson l with
  | false => rfl
  | true =>
    have := containsSeq_of_prefix_contains sepFence sepJson l ⟨['j', 's', 'o', 'n'], rfl⟩ hc
    rw [h] at this
    cases this

/-- `split(sep)[0]` of a text without occurrences is the text itself. -/
theorem upToFirst_of_not_contains (sep : List Char) :
    ∀ l : List Char, containsSeq sep l = false → upToFirst sep l = l := by
  intro l
  induction l with
  | nil => intro _; rfl
  | cons c rest ih =>
    intro h
    obtain ⟨h1, h2⟩ := containsSeq_cons_false sep c rest h
    rw [upToFirst, if_neg (by simp [h1]), ih h2]

/-- `split(sep)[0]` cuts exactly at the separator when no occurrence
starts earlier: the hypothesis says `sep` does not occur in `m` extended
by the first `|sep| - 1` separator characters, which covers every
occurrence that could start inside `m`. -/
theorem upToFirst_boundary (s0 : Char) (srest : List Char) :
    ∀ m rest : List Char,
    containsSeq (s0 :: srest) (m ++ (s0 :: srest).dropLast) = false →
    upToFirst (s0 :: srest) (m ++ ((s0 :: srest) ++ rest)) = m := by
  intro m
  induction m with
  | nil =>
    intro rest _
    rw [List.nil_append]
    rw [show (s0 :: srest) ++ rest = s0 :: (srest ++ rest) from rfl]
    rw [upToFirst, if_pos (show (s0 :: srest).isPrefixOf (s0 :: (srest ++ rest)) = true from
      List.isPrefixOf_iff_prefix.mpr ⟨rest, by simp⟩)]
  | cons c m2 ih =>
    intro rest h
    have htail : containsSeq (s0 :: srest) (m2 ++ (s0 :: srest).dropLast) = false :=
      (containsSeq_cons_false _ _ _ (by simpa using h)).2
    have hnp : (s0 :: srest).isPrefixOf (c :: (m2 ++ ((s0 :: srest) ++ rest))) = false := by
      cases hb : (s0 :: srest).isPrefixOf (c :: (m2 ++ ((s0 :: srest) ++ rest))) with
      | false => rfl
      | true =>
        exfalso
        have hpre : (s0 :: srest) <+: ((c :: m2) ++ ((s0 :: srest) ++ rest)) :=
          List.isPrefixOf_iff_prefix.mp hb
        have hre : (c :: m2) ++ ((s0 :: srest) ++ rest) =
            ((c :: m2) ++ (s0 :: srest).dropLast) ++
              ([(s0 :: srest).getLast (by simp)] ++ rest) := by
          conv_lhs => rw [show (s0 :: srest) =
            (s0 :: srest).dropLast ++ [(s0 :: srest).getLast (by simp)] from
            (List.dropLast_append_getLast (by simp)).symm]
          simp [List.append_assoc]
        rw [hre] at hpre
        rcases List.prefix_or_prefix_of_prefix hpre
          (List.prefix_append ((c :: m2) ++ (s0 :: srest).dropLast) _) with hc1 | hc1
        · have hocc : containsSeq (s0 :: srest) ((c :: m2) ++ (s0 :: srest).dropLast) = true :=
            containsSeq_of_isPrefixOf _ _ (List.isPrefixOf_iff_prefix.mpr hc1)
          rw [h] at hocc
          cases hocc
        · have hlen : (s0 :: srest).length ≤ ((c :: m2) ++ (s0 :: srest).dropLast).length := by
            simp [List.length_append, List.length_dropLast]
          have hAeq : (c :: m2) ++ (s0 :: srest).dropLast = s0 :: srest :=
            hc1.eq_of_length (le_antisymm hc1.length_le hlen)
          have hocc : containsSeq (s0 :: srest) ((c :: m2) ++ (s0 :: srest).dropLast) = true := by
            rw [hAeq]
            exact containsSeq_of_isPrefixOf _ _
              (List.isPrefixOf_iff_prefix.mpr (List.prefix_refl _))
          rw [h] at hocc
          cases hocc
    rw [show (c :: m2) ++ ((s0 :: srest) ++ rest) = c :: (m2 ++ ((s0 :: srest) ++ rest)) from rfl]
    rw [upToFirst, if_neg (show ¬ ((s0 :: srest).isPrefixOf
      (c :: (m2 ++ ((s0 :: srest) ++ rest))) = true) from by rw [hnp]; decide), ih rest htail]

/-- `split(sep)[1]`-style tail extraction when the separator sits at the
front. -/
theorem afterFirst_append (c : Char) (cs tail : List Char) :
    afterFirst (c :: cs) ((c :: cs) ++ tail) = tail := by
  rw [show (c :: cs) ++ tail = c :: (cs ++ tail) from rfl]
  rw [afterFirst, if_pos (List.isPrefixOf_iff_prefix.mpr ⟨tail, by simp⟩)]
  simp [List.drop_left]

/-- Appending the fence tail `"\n``"` to a backtick-run-free text creates
no triple-backtick occurrence. -/
theorem contains_fence_append (s : List Char) (h : containsSeq sepFence s = false) :
    containsSeq sepFence (s ++ ['\n', '`', '`']) = false := by
  induction s with
  | nil => decide
  | cons c rest ih =>
    obtain ⟨h1, h2⟩ := containsSeq_cons_false _ _ _ h
    have ih2 := ih h2
    rw [List.cons_append, containsSeq]
    have hnp : sepFence.isPrefixOf (c :: (rest ++ ['\n', '`', '`'])) = false := by
      cases hb : sepFence.isPrefixOf (c :: (rest ++ ['\n', '`', '`'])) with
      | false => rfl
      | true =>
        exfalso
        have hpre : sepFence <+: ((c :: rest) ++ ['\n', '`', '`']) :=
          List.isPrefixOf_iff_prefix.mp hb
        rcases List.prefix_or_prefix_of_prefix hpre
          (List.prefix_append (c :: rest) _) with hc1 | hc1
        · have hcontra := List.isPrefixOf_iff_prefix.mpr hc1
          rw [h1] at hcontra
          cases hcontra
        · cases rest with
          | nil =>
            obtain ⟨t, ht⟩ := hc1
            have ht2 : c :: t = sepFence := by simpa using ht
            rw [show sepFence = ['`', '`', '`'] from rfl] at ht2
            injection ht2 with hc _
            subst hc
            exact absurd (List.isPrefixOf_iff_prefix.mpr hpre) (by decide)
          | cons d rest2 =>
            cases rest2 with
            | nil =>
              obtain ⟨t, ht⟩ := hc1
              have ht2 : c :: d :: t = sepFence := by simpa using ht
              rw [show sepFence = ['`', '`', '`'] from rfl] at ht2
              injection ht2 with hc ht3
              injection ht3 with hd _
              subst hc
              subst hd
              exact absurd (List.isPrefixOf_iff_prefix.mpr hpre) (by decide)
            | cons e rest3 =>
              have hr3 : rest3 = [] := by
                have hlen := hc1.length_le
                rw [show sepFence.length = 3 from rfl] at hlen
                simp only [List.length_cons] at hlen
                exact List.length_eq_zero.mp (by omega)
              subst hr3
              have hAeq : c :: d :: e :: ([] : List Char) = sepFence :=
                hc1.eq_of_length (by simp [sepFence])
              rw [hAeq] at h1
              have hrefl : sepFence.isPrefixOf sepFence = true :=
                List.isPrefixOf_iff_prefix.mpr (List.prefix_refl _)
              rw [h1] at hrefl
              cases hrefl
    rw [hnp, ih2]
    rfl

/-- A leading newline creates no triple-backtick occurrence either. -/
theorem contains_fence_cons_nl (s : List Char) (h : containsSeq sepFence s = false) :
    containsSeq sepFence ('\n' :: s) = false := by
  rw [containsSeq]
  rw [show sepFence.isPrefixOf ('\n' :: s) = false from rfl, h]
  rfl

/-- Fence stripping on a wrapped backtick-free document yields exactly the
trimmed document: `split("```json")[1]` keeps everything after the opening
marker, `split("```")[0]` then cuts at the closing fence, and `trim`
removes the wrapping newlines. -/
theorem stripFence_fenced (s : String) (hfree : containsSeq sepFence s.data = false) :
    stripFence (("```json\n" ++ s ++ "\n```").data) = jsTrim s.data := by
  have hdata : ("```json\n" ++ s ++ "\n```").data =
      sepJson ++ ('\n' :: (s.data ++ ('\n' :: sepFence))) := by
    rw [String.data_append, String.data_append]
    rw [show ("```json\n" : String).data = sepJson ++ ['\n'] from rfl]
    rw [show ("\n```" : String).data = '\n' :: sepFence from rfl]
    simp [List.append_assoc]
  rw [hdata, stripFence]
  have hc1 : containsSeq sepJson (sepJson ++ ('\n' :: (s.data ++ ('\n' :: sepFence)))) = true :=
    containsSeq_of_isPrefixOf _ _ (List.isPrefixOf_iff_prefix.mpr (List.prefix_append _ _))
  rw [if_pos hc1]
  rw [show sepJson = '`' :: ['`', '`', 'j', 's', 'o', 'n'] from rfl]
  rw [afterFirst_append]
  have hocc : containsSeq sepFence (('\n' :: (s.data ++ ['\n'])) ++ ['`', '`']) = false := by
    have hocc0 : containsSeq sepFence ('\n' :: (s.data ++ ['\n', '`', '`'])) = false :=
      contains_fence_cons_nl _ (contains_fence_append s.data hfree)
    simpa [List.append_assoc] using hocc0
  have hshape : ('\n' :: (s.data ++ ('\n' :: sepFence))) =
      ('\n' :: (s.data ++ ['\n'])) ++ (sepFence ++ []) := by simp
  rw [hshape]
  rw [show sepFence = '`' :: ['`', '`'] from rfl]
  rw [upToFirst_boundary '`' ['`', '`'] ('\n' :: (s.data ++ ['\n'])) [] hocc]
  exact jsTrim_wrap s.data

/-- Claim C8 (amended to documents without a triple-backtick run):
`parseJSON` on a bare JSON string and on the same string wrapped in a
```json fence yield identical results. -/
theorem claim_C8_fence_roundtrip (s : String)
    (hfree : containsSeq sepFence s.data = false)
    (_hjson : ∃ j, parseJSON s = Except.ok j) :
    parseJSON s = parseJSON ("```json\n" ++ s ++ "\n```") := by
  rw [parseJSON, parseJSON, stripFence_fenced s hfree, jparseChars_trim]
  have h7 : containsSeq sepJson s.data = false := contains_sepJson_false s.data hfree
  rw [stripFence, if_neg (by rw [h7]; decide), if_neg (by rw [hfree]; decide)]

/-- Witness for claim C8: the round trip at the document `{"a": 1}`. -/
theorem claim_C8_fence_roundtrip_witness :
    parseJSON "\x7b\"a\": 1\x7d" = parseJSON ("```json\n" ++ "\x7b\"a\": 1\x7d" ++ "\n```") :=
  claim_C8_fence_roundtrip "\x7b\"a\": 1\x7d" (by decide)
    ⟨Json.obj (JsonObj.cons "a" (Json.num 1 0) JsonObj.nil), rfl⟩

/-- Counterexample for claim C8 as frozen: the valid JSON document
`["```1```"]` contains triple-backtick runs, so the bare parse (already
mangled to `1` by the fence stripper) and the fenced parse (a JSON error)
disagree. -/
theorem claim_C8_counterexample :
    parseJSON strTrickyJson = Except.ok (Json.num 1 0) ∧
    parseJSON ("```json\n" ++ strTrickyJson ++ "\n```") ≠ parseJSON strTrickyJson := by
  refine ⟨rfl, ?_⟩
  intro h
  have h1 : parseJSON ("```json\n" ++ strTrickyJson ++ "\n```") =
      Except.error "Invalid JSON in LLM response: unterminated string" := rfl
  have h2 : parseJSON strTrickyJson = Except.ok (Json.num 1 0) := rfl
  rw [h1, h2] at h
  exact Except.noConfusion h
